import Mathlib

/-!
Verification of the incremental generation-to-markup streaming pipeline of
the endless-wiki server (Go sources: `main.go` and the two sibling snapshots
of it under `src/unnamed/`).

Strings are modelled as `List Char`.  Go's byte-level operations are modelled
at character level; all string constants appearing in the program are ASCII,
where the two coincide.  `unicode.IsSpace` / `strings.ToUpper` /
`strings.ToLower` are modelled on their ASCII fragments (every character the
program itself manipulates is ASCII).
-/

namespace EndlessWiki

/-- Strings as lists of characters. -/
abbrev Str := List Char

/-- ASCII fragment of Go's `unicode.IsSpace` (used by `strings.Fields` and
`strings.TrimSpace`). -/
def isGoSpace (c : Char) : Bool :=
  c = ' ' || c = '\t' || c = '\n' || c = '\x0b' || c = '\x0c' || c = '\r'

/-- ASCII fragment of Go's upper-casing (used on one-character strings in the
heading heuristic `strings.ToUpper(trimmed[:1])`). -/
def toUpperAscii (c : Char) : Char :=
  if 'a' ≤ c && c ≤ 'z' then Char.ofNat (c.toNat - 32) else c

/-- ASCII fragment of Go's lower-casing (used by `isCommonWord`). -/
def toLowerAscii (c : Char) : Char :=
  if 'A' ≤ c && c ≤ 'Z' then Char.ofNat (c.toNat + 32) else c

/-- Go `strings.TrimLeft(s, cutset)`. -/
def goTrimLeft (s : Str) (cut : Str) : Str :=
  s.dropWhile (fun c => cut.contains c)

/-- Go `strings.TrimRight(s, cutset)`. -/
def goTrimRight (s : Str) (cut : Str) : Str :=
  (s.reverse.dropWhile (fun c => cut.contains c)).reverse

/-- Go `strings.Trim(s, cutset)`. -/
def goTrim (s : Str) (cut : Str) : Str :=
  goTrimRight (goTrimLeft s cut) cut

/-- Go `strings.TrimSpace(s)`. -/
def goTrimSpace (s : Str) : Str :=
  (((s.dropWhile isGoSpace).reverse).dropWhile isGoSpace).reverse

/-- Go `strings.Split(s, "\n")` (single-character separator). -/
def goSplitNl : Str → List Str
  | [] => [[]]
  | c :: rest =>
    if c = '\n' then [] :: goSplitNl rest
    else
      match goSplitNl rest with
      | [] => [[c]]
      | w :: ws => (c :: w) :: ws

/-- Worker for `goFields`: `acc` holds the current word, reversed. -/
def goFieldsAux : Str → Str → List Str
  | [], acc => if acc.isEmpty then [] else [acc.reverse]
  | c :: rest, acc =>
    if isGoSpace c then
      if acc.isEmpty then goFieldsAux rest [] else acc.reverse :: goFieldsAux rest []
    else goFieldsAux rest (c :: acc)

/-- Go `strings.Fields(s)`: split around runs of whitespace. -/
def goFields (s : Str) : List Str := goFieldsAux s []

/-- Go `strings.HasPrefix` / pattern-match helper. -/
def startsWithL : Str → Str → Bool
  | _, [] => true
  | [], _ :: _ => false
  | c :: s, p :: ps => c = p && startsWithL s ps

/-- `containsSub s pat`: `pat` occurs as a contiguous substring of `s`
(Go `strings.Contains`). -/
def containsSub : Str → Str → Bool
  | [], pat => pat.isEmpty
  | c :: rest, pat => startsWithL (c :: rest) pat || containsSub rest pat

/-- Worker for `goReplaceAll`, specialised to a non-empty pattern
`p :: ps`: left-to-right scan, replacing non-overlapping occurrences. -/
def replLoop (p : Char) (ps : Str) (rep : Str) : Str → Str
  | [] => []
  | c :: rest =>
    if startsWithL (c :: rest) (p :: ps) then
      rep ++ replLoop p ps rep (rest.drop ps.length)
    else c :: replLoop p ps rep rest
  termination_by s => s.length
  decreasing_by
  · simp only [List.length_drop, List.length_cons]; omega
  · simp only [List.length_cons]; omega

/-- Go `strings.ReplaceAll(s, pat, rep)` for non-empty `pat` (every use in
the program has a non-empty pattern; the empty-pattern case of Go, which
interleaves `rep` between characters, never occurs and is modelled as the
identity). -/
def goReplaceAll (s pat rep : Str) : Str :=
  match pat with
  | [] => s
  | p :: ps => replLoop p ps rep s

/-- The `i > 0` separator-writing loop shared by `makeWordsClickable`
(separator `' '`), `makeEveryWordClickable` and `formatPlainTextToHTML`
(separator `'\n'`). -/
def joinWith (sep : Char) : List Str → Str
  | [] => []
  | [l] => l
  | l :: l' :: ls => l ++ sep :: joinWith sep (l' :: ls)

/-- Go `template.HTMLEscapeString`, one character at a time: `&`, `'`, `<`,
`>`, `"` become entities, everything else is kept. -/
def htmlEscapeChar (c : Char) : Str :=
  if c = '&' then "&amp;".data
  else if c = '\x27' then "&#39;".data
  else if c = '<' then "&lt;".data
  else if c = '>' then "&gt;".data
  else if c = '\x22' then "&#34;".data
  else [c]

/-- Go `template.HTMLEscapeString`. -/
def htmlEscape (s : Str) : Str := s.flatMap htmlEscapeChar

/-- The punctuation cutset `".,!?;:()[]{}\"'"` of `makeWordsClickable`. -/
def punctCutset : Str :=
  ['.', ',', '!', '?', ';', ':', '(', ')', '[', ']', '\x7b', '\x7d', '\x22', '\x27']

/-- The stop-word set of `isCommonWord` (`part_000`), in source order (the
duplicated `"her"` key listed once). -/
def commonWords : List Str :=
  (["the", "a", "an", "and", "or", "but",
    "in", "on", "at", "to", "for", "of",
    "with", "by", "is", "are", "was", "were",
    "be", "been", "have", "has", "had", "do",
    "does", "did", "will", "would", "could", "should",
    "may", "might", "can", "must", "shall",
    "this", "that", "these", "those", "it", "its",
    "he", "she", "they", "we", "you", "i",
    "me", "him", "her", "them", "us", "my",
    "your", "his", "their", "our",
    "as", "so", "if", "when", "where", "why",
    "how", "what", "who", "which", "than", "then",
    "now", "here", "there", "up", "down", "out",
    "off", "over", "under", "again", "further",
    "once", "more", "most", "other", "some", "any",
    "each", "few", "all", "both", "either", "neither",
    "not", "no", "nor", "too", "very", "just",
    "only", "own", "same", "such", "into", "from",
    "about", "after", "before", "during", "between",
    "through", "above", "below", "because", "until",
    "while", "since", "although", "though", "unless"]).map String.data

/-- `isCommonWord` (`part_000`): case-insensitive membership in the
stop-word set. -/
def isCommonWord (word : Str) : Bool :=
  commonWords.contains (word.map toLowerAscii)

/-- The per-word body of the `makeWordsClickable` loop (`part_000`): strip
leading/trailing punctuation, keep short or common words verbatim, link the
rest to `/wiki/<stripped word>` with the stripped punctuation kept outside
the anchor. -/
def clickWord (word : Str) : Str :=
  let cleanWord := goTrim word punctCutset
  if cleanWord.length ≤ 2 || isCommonWord cleanWord then word
  else
    let pre := word.take (word.length - (goTrimLeft word punctCutset).length)
    let suf := word.drop (goTrimRight word punctCutset).length
    pre ++ "<a href=\"/wiki/".data ++ cleanWord ++ "\">".data ++ cleanWord
      ++ "</a>".data ++ suf

/-- `makeWordsClickable` (`part_000`): split into whitespace-delimited
words, transform each, write a single `' '` before every word but the
first. -/
def makeWordsClickable (text : Str) : Str :=
  joinWith ' ' ((goFields text).map clickWord)

/-- The inline heading heuristic shared by `makeEveryWordClickable`
(`part_000`) and `formatPlainTextToHTML` (`part_001`):
`len(trimmed) > 0 && (HasSuffix(trimmed, ":") || (len(trimmed) < 100 &&
!Contains(trimmed, ".") && ToUpper(trimmed[:1]) == trimmed[:1]))`. -/
def isHeadingLine (line : Str) : Bool :=
  let trimmed := goTrimSpace line
  decide (0 < trimmed.length) &&
    (decide (trimmed.getLast? = some ':') ||
      (decide (trimmed.length < 100) && !(trimmed.contains '.') &&
        (match trimmed with
         | [] => true
         | c :: _ => decide (toUpperAscii c = c))))

/-- One line of `formatPlainTextToHTML` (`part_001`): blank lines become
`<br>`, heading lines an escaped `<h3>`, everything else an escaped
`<p>`. -/
def renderLineB (line : Str) : Str :=
  if (goTrimSpace line).isEmpty then "<br>".data
  else if isHeadingLine line then
    "<h3>".data ++ htmlEscape line ++ "</h3>".data
  else
    "<p>".data ++ htmlEscape line ++ "</p>".data

/-- `formatPlainTextToHTML` (`part_001`), strategy (b): heuristic plain-text
sectioning with HTML-escaped content. -/
def formatPlainTextToHTML (content : Str) : Str :=
  joinWith '\n' ((goSplitNl content).map renderLineB)

/-- One line of `makeEveryWordClickable` (`part_000`): same line
classification, but line content goes through `makeWordsClickable` and is
never HTML-escaped. -/
def renderLineC (line : Str) : Str :=
  if (goTrimSpace line).isEmpty then "<br>".data
  else if isHeadingLine line then
    "<h3>".data ++ makeWordsClickable line ++ "</h3>".data
  else
    "<p>".data ++ makeWordsClickable line ++ "</p>".data

/-- `makeEveryWordClickable` (`part_000`), strategy (c): auto-linking. -/
def makeEveryWordClickable (content : Str) : Str :=
  joinWith '\n' ((goSplitNl content).map renderLineC)

/-- `processWikiLinks` (`main.go`, first snapshot):
`strings.ReplaceAll(content, "<a href=\"", "<a href=\"/wiki/")`. -/
def processWikiLinks (content : Str) : Str :=
  goReplaceAll content "<a href=\"".data "<a href=\"/wiki/".data

/-- The SSE newline encoding applied before pushing a snapshot
(`strings.ReplaceAll(s, "\n", "\\n")`, `generateArticleStream`). -/
def escapeNewlines (s : Str) : Str :=
  goReplaceAll s ['\n'] ['\\', 'n']

/-- The client-side re-expansion (`event.data.replace(/\\n/g, '\n')` in the
page script of `renderStreamingWikiPage`): left-to-right global replacement
of the two-character sequence `\\` `n` by a newline. -/
def clientDecode (s : Str) : Str :=
  goReplaceAll s ['\\', 'n'] ['\n']

/-! ## Session controller (`streamHandler` / `generateArticleStream`)

Model of the decode loop of `generateArticleStream` and of the event pushes
of `streamHandler` (the context-aware snapshot in `main.go`; with
cancellation absent it is also the loop of the `part_000`/`part_001`
snapshots).  The backend stream is modelled as the list of successfully
decodable `OllamaResponse` objects, in order; the end of that list is the
point at which `decoder.Decode` returns an error (end of stream or a
malformed chunk — the code does not distinguish them).  Cancellation of the
request context is modelled by the time `cancelAt` from which `ctx.Err()`
is non-nil; the loop observes time `t` at its top-of-iteration check and
`t + 1` at the check following a failed decode, advancing one tick per
iteration.  The renderer applied to the accumulated buffer before each push
is a parameter (`id` for the markdown snapshot in `main.go`,
`formatPlainTextToHTML` for `part_001`, `makeEveryWordClickable` for
`part_000`). -/

/-- One decoded backend object (`OllamaResponse`): a text fragment and the
completion flag. -/
structure OllamaChunk where
  response : Str
  done : Bool
deriving DecidableEq

/-- Cancellation time of the request context: `none` means the client never
disconnects; `some k` means `ctx.Err()` is non-nil from time `k` on. -/
abbrev CancelSpec := Option Nat

/-- `ctx.Err() != nil` at time `t`. -/
def ctxErr (cancelAt : CancelSpec) (t : Nat) : Bool :=
  match cancelAt with
  | none => false
  | some k => decide (k ≤ t)

/-- A server-sent event pushed to the client: a content snapshot, the error
marker, or the terminal completion marker. -/
inductive SSE where
  | content : Str → SSE
  | error : SSE
  | complete : SSE
deriving DecidableEq

/-- Result of the decode loop: events pushed, final accumulated buffer,
whether the loop returned `ctx.Err()` (a non-nil error), and the time at
which it returned. -/
structure LoopResult where
  events : List SSE
  buffer : Str
  cancelErr : Bool
  tEnd : Nat
deriving DecidableEq

/-- The decode loop of `generateArticleStream` (`main.go`): check the
context, decode the next object, append a non-empty fragment to the buffer
and push the re-rendered newline-escaped snapshot, stop on `done`, treat a
decode failure as end of stream unless the context was cancelled. -/
def decodeLoop (render : Str → Str) (cancelAt : CancelSpec) :
    List OllamaChunk → Nat → Str → LoopResult
  | chunks, t, buf =>
    if ctxErr cancelAt t then ⟨[], buf, true, t⟩
    else
      match chunks with
      | [] =>
        if ctxErr cancelAt (t + 1) then ⟨[], buf, true, t + 1⟩
        else ⟨[], buf, false, t + 1⟩
      | ch :: rest =>
        let buf' := buf ++ ch.response
        let evs : List SSE :=
          if ch.response.isEmpty then []
          else [SSE.content (escapeNewlines (render buf'))]
        if ch.done then ⟨evs, buf', false, t + 1⟩
        else
          let r := decodeLoop render cancelAt rest (t + 1) buf'
          ⟨evs ++ r.events, r.buffer, r.cancelErr, r.tEnd⟩

/-- `streamHandler` (`main.go`) after the headers: run the generation, on a
non-nil error return silently if the context was cancelled and push the
error event otherwise, then push the completion event only if the context
is still alive. -/
def streamHandlerModel (render : Str → Str) (cancelAt : CancelSpec)
    (chunks : List OllamaChunk) : List SSE :=
  let r := decodeLoop render cancelAt chunks 0 []
  if r.cancelErr then
    if ctxErr cancelAt r.tEnd then r.events
    else
      let ev := r.events ++ [SSE.error]
      if ctxErr cancelAt r.tEnd then ev else ev ++ [SSE.complete]
  else
    if ctxErr cancelAt r.tEnd then r.events else r.events ++ [SSE.complete]

/-- The chunks the loop actually consumes: everything up to and including
the first `done` chunk. -/
def processedChunks : List OllamaChunk → List OllamaChunk
  | [] => []
  | c :: rest => if c.done then [c] else c :: processedChunks rest

/-- Modelled from the spec: the expected push trace — for every non-empty
fragment, one content event carrying the newline-escaped rendering of the
concatenation of all fragments received so far (`buf` is the concatenation
of the fragments that arrived before `chunks`). -/
def snapshotTrace (render : Str → Str) (buf : Str) :
    List OllamaChunk → List SSE
  | [] => []
  | c :: rest =>
    let buf' := buf ++ c.response
    let here : List SSE :=
      if c.response.isEmpty then []
      else [SSE.content (escapeNewlines (render buf'))]
    if c.done then here else here ++ snapshotTrace render buf' rest

/-- Modelled from the spec (for refinement comparison with
`isHeadingLine`): a non-blank line counts as a heading iff its
whitespace-trimmed content ends with a colon, or is shorter than 100
characters, contains no period, and starts with a character equal to its
own upper-casing. -/
def headingSpec (t : Str) : Bool :=
  decide (t.getLast? = some ':') ||
    (decide (t.length < 100) && !(t.contains '.') &&
      (match t.head? with
       | none => true
       | some c => decide (toUpperAscii c = c)))

/-! ## Helper lemmas -/

theorem replLoop_nil (p : Char) (ps rep : Str) : replLoop p ps rep [] = [] := by
  simp [replLoop]

theorem replLoop_cons_pos (p : Char) (ps rep : Str) (c : Char) (rest : Str)
    (h : startsWithL (c :: rest) (p :: ps) = true) :
    replLoop p ps rep (c :: rest) = rep ++ replLoop p ps rep (rest.drop ps.length) := by
  rw [replLoop, if_pos h]

theorem replLoop_cons_neg (p : Char) (ps rep : Str) (c : Char) (rest : Str)
    (h : startsWithL (c :: rest) (p :: ps) = false) :
    replLoop p ps rep (c :: rest) = c :: replLoop p ps rep rest := by
  rw [replLoop, if_neg (by simp [h])]

theorem startsWithL_append_self (p s : Str) : startsWithL (p ++ s) p = true := by
  induction p with
  | nil => simp [startsWithL]
  | cons c ps ih => simpa [startsWithL] using ih

theorem goReplaceAll_pat_append (p : Char) (ps rep s : Str) :
    goReplaceAll ((p :: ps) ++ s) (p :: ps) rep = rep ++ goReplaceAll s (p :: ps) rep := by
  show replLoop p ps rep (p :: (ps ++ s)) = rep ++ replLoop p ps rep s
  rw [replLoop_cons_pos p ps rep p (ps ++ s)
    (by simpa using startsWithL_append_self (p :: ps) s)]
  rw [List.drop_left]

theorem escapeNewlines_nil : escapeNewlines [] = [] := by
  simp [escapeNewlines, goReplaceAll, replLoop]

theorem escapeNewlines_cons_nl (t : Str) :
    escapeNewlines ('\n' :: t) = '\\' :: 'n' :: escapeNewlines t := by
  show replLoop '\n' [] ['\\', 'n'] ('\n' :: t) = _
  rw [replLoop_cons_pos _ _ _ _ _ (by simp [startsWithL])]
  rfl

theorem escapeNewlines_cons (c : Char) (t : Str) (h : c ≠ '\n') :
    escapeNewlines (c :: t) = c :: escapeNewlines t := by
  show replLoop '\n' [] ['\\', 'n'] (c :: t) = _
  rw [replLoop_cons_neg _ _ _ _ _ (by simp [startsWithL, h])]
  rfl

theorem clientDecode_nil : clientDecode [] = [] := by
  simp [clientDecode, goReplaceAll, replLoop]

theorem clientDecode_cons_pair (t : Str) :
    clientDecode ('\\' :: 'n' :: t) = '\n' :: clientDecode t := by
  show replLoop '\\' ['n'] ['\n'] ('\\' :: 'n' :: t) = _
  rw [replLoop_cons_pos _ _ _ _ _ (by simp [startsWithL])]
  rfl

theorem clientDecode_cons_nonslash (c : Char) (t : Str) (h : c ≠ '\\') :
    clientDecode (c :: t) = c :: clientDecode t := by
  show replLoop '\\' ['n'] ['\n'] (c :: t) = _
  rw [replLoop_cons_neg _ _ _ _ _ (by simp [startsWithL, h])]
  rfl

theorem clientDecode_cons_headne (t : Str) (h : t.head? ≠ some 'n') :
    clientDecode ('\\' :: t) = '\\' :: clientDecode t := by
  show replLoop '\\' ['n'] ['\n'] ('\\' :: t) = _
  rw [replLoop_cons_neg _ _ _ _ _ ?_]
  · rfl
  · cases t with
    | nil => simp [startsWithL]
    | cons d t' =>
      have hd : d ≠ 'n' := by simpa using h
      simp [startsWithL, hd]

/-- Head of the encoded stream: never `'n'` unless the source starts with
`'n'`. -/
theorem escapeNewlines_head_ne (t : Str) (h : t.head? ≠ some 'n') :
    (escapeNewlines t).head? ≠ some 'n' := by
  cases t with
  | nil => simp [escapeNewlines_nil]
  | cons d t' =>
    by_cases hd : d = '\n'
    · subst hd
      rw [escapeNewlines_cons_nl]
      simp
    · rw [escapeNewlines_cons d t' hd]
      simpa using h

theorem containsSub_cons_false {c : Char} {rest pat : Str}
    (h : containsSub (c :: rest) pat = false) :
    startsWithL (c :: rest) pat = false ∧ containsSub rest pat = false := by
  simpa [containsSub] using h

theorem roundtrip_aux (s : Str) (h : containsSub s ['\\', 'n'] = false) :
    clientDecode (escapeNewlines s) = s := by
  induction s with
  | nil => simp [escapeNewlines_nil, clientDecode_nil]
  | cons c t ih =>
    obtain ⟨hsw, htail⟩ := containsSub_cons_false h
    by_cases hc : c = '\n'
    · subst hc
      rw [escapeNewlines_cons_nl, clientDecode_cons_pair, ih htail]
    · rw [escapeNewlines_cons c t hc]
      by_cases hb : c = '\\'
      · subst hb
        have hhead : t.head? ≠ some 'n' := by
          cases t with
          | nil => simp
          | cons d t' =>
            have : d ≠ 'n' := by
              intro hd
              subst hd
              simp [startsWithL] at hsw
            simpa using this
        rw [clientDecode_cons_headne _ (escapeNewlines_head_ne t hhead), ih htail]
      · rw [clientDecode_cons_nonslash c _ hb, ih htail]

theorem startsWithL_extend_false {s p : Str} (q : Str)
    (h : startsWithL s p = false) : startsWithL s (p ++ q) = false := by
  induction p generalizing s with
  | nil => simp [startsWithL] at h
  | cons c ps ih =>
    cases s with
    | nil => cases q <;> simp [startsWithL]
    | cons d ss =>
      simp only [startsWithL, Bool.and_eq_false_iff] at h
      rcases h with h | h
      · simp [startsWithL, h]
      · simp [startsWithL, List.cons_append, ih h]

/-- A string free of a pattern is free of every extension of it. -/
theorem containsSub_extend_false {s p : Str} (q : Str)
    (h : containsSub s p = false) : containsSub s (p ++ q) = false := by
  induction s with
  | nil =>
    cases p with
    | nil => simp [containsSub] at h
    | cons c ps => simp [containsSub]
  | cons c rest ih =>
    obtain ⟨h1, h2⟩ := containsSub_cons_false h
    simp [containsSub, startsWithL_extend_false q h1, ih h2]

theorem startsWithL_pair_eq (c : Char) (l : Str) (x y : Char) :
    startsWithL (c :: l) [x, y]
      = (decide (c = x) && decide (l.head? = some y)) := by
  cases l <;> simp [startsWithL]

/-- Straddle-free concatenation: if neither part contains the two-character
pattern and the pattern does not straddle the boundary, nor does the
whole. -/
theorem containsSub_pair_append {a b : Str} {x y : Char}
    (ha : containsSub a [x, y] = false) (hb : containsSub b [x, y] = false)
    (hstr : a.getLast? = some x → b.head? = some y → False) :
    containsSub (a ++ b) [x, y] = false := by
  induction a with
  | nil => simpa using hb
  | cons c a' ih =>
    obtain ⟨h1, h2⟩ := containsSub_cons_false ha
    have hrec : containsSub (a' ++ b) [x, y] = false := by
      refine ih h2 (fun hl hh => hstr ?_ hh)
      cases a' with
      | nil => simp at hl
      | cons d a'' => rw [List.getLast?_cons_cons]; exact hl
    have h1' : startsWithL (c :: (a' ++ b)) [x, y] = false := by
      rw [startsWithL_pair_eq]
      by_cases hcx : c = x
      · subst hcx
        cases a' with
        | nil =>
          by_cases hby : b.head? = some y
          · exact (hstr (by simp) hby).elim
          · simp [hby]
        | cons d a'' =>
          by_cases hdy : d = y
          · exfalso
            rw [startsWithL_pair_eq] at h1
            simp [hdy] at h1
          · simp [hdy]
      · simp [hcx]
    simp [List.cons_append, containsSub, h1', hrec]

/-- Escaped text contains no literal `<`. -/
theorem htmlEscape_no_lt (s : Str) : '<' ∉ htmlEscape s := by
  induction s with
  | nil => simp [htmlEscape]
  | cons c t ih =>
    have hc : '<' ∉ htmlEscapeChar c := by
      unfold htmlEscapeChar
      split
      · decide
      · split
        · decide
        · split
          · decide
          · split
            · decide
            · split
              · decide
              · rename_i h1 h2 h3 h4 h5
                simp
                exact fun h => h3 h.symm
    simp only [htmlEscape, List.flatMap_cons, List.mem_append]
    rintro (h | h)
    · exact hc h
    · exact ih h

/-- A string without the character `x` does not contain any pattern that
starts with `x`. -/
theorem containsSub_pair_of_not_mem {s : Str} {x y : Char} (h : x ∉ s) :
    containsSub s [x, y] = false := by
  induction s with
  | nil => simp [containsSub]
  | cons c t ih =>
    have hcx : c ≠ x := fun hc => h (by simp [hc])
    have ht : x ∉ t := fun hm => h (by simp [hm])
    rw [containsSub, startsWithL_pair_eq]
    simp [hcx, ih ht]

/-- Joining pieces with a separator that matches neither pattern character
preserves pattern-freedom. -/
theorem containsSub_pair_joinWith {sep x y : Char} (hx : sep ≠ x) (hy : sep ≠ y)
    (ls : List Str) (h : ∀ l ∈ ls, containsSub l [x, y] = false) :
    containsSub (joinWith sep ls) [x, y] = false := by
  induction ls with
  | nil => simp [joinWith, containsSub]
  | cons l ls ih =>
    cases ls with
    | nil => simpa [joinWith] using h l (by simp)
    | cons l' ls' =>
      show containsSub (l ++ sep :: joinWith sep (l' :: ls')) [x, y] = false
      have hrest : containsSub (joinWith sep (l' :: ls')) [x, y] = false :=
        ih (fun m hm => h m (by simp; right; simpa using hm))
      refine containsSub_pair_append (h l (by simp)) ?_ ?_
      · rw [containsSub, startsWithL_pair_eq]
        simp [hx, hrest]
      · intro _ hh
        simp at hh
        exact hy hh

/-- No line rendered by heuristic sectioning contains the character pair
`<` `s`. -/
theorem renderLineB_no_lt_s (line : Str) :
    containsSub (renderLineB line) ['<', 's'] = false := by
  unfold renderLineB
  split
  · decide
  · have hesc := containsSub_pair_of_not_mem (y := 's') (htmlEscape_no_lt line)
    split
    · rw [List.append_assoc]
      refine containsSub_pair_append (by decide) ?_ ?_
      · refine containsSub_pair_append hesc (by decide) ?_
        intro _ hh
        exact absurd hh (by decide)
      · intro hl _
        exact absurd hl (by decide)
    · rw [List.append_assoc]
      refine containsSub_pair_append (by decide) ?_ ?_
      · refine containsSub_pair_append hesc (by decide) ?_
        intro _ hh
        exact absurd hh (by decide)
      · intro hl _
        exact absurd hl (by decide)

/-! ## Claim theorems -/

/-- C1, counterexample: the auto-linking renderer (strategy (c),
`makeEveryWordClickable`) performs no HTML escaping at all; the raw buffer
`"Run <script> now."` yields a snapshot that contains the literal substring
`<script>`, contradicting the claim that strategies (b) and (c) never emit
it unescaped. -/
theorem c1_autolink_script_cex :
    containsSub (makeEveryWordClickable "Run <script> now.".data) "<script>".data
      = true := by
  decide

/-- C1, amended: under the heuristic plain-text sectioning renderer
(strategy (b), `formatPlainTextToHTML`) every literal text portion is
HTML-escaped, so no snapshot ever contains the literal substring
`<script>`; the auto-linking strategy (c) gives no such guarantee. -/
theorem c1_sectioning_never_contains_script (content : Str) :
    containsSub (formatPlainTextToHTML content) "<script>".data = false := by
  have h2 : containsSub (formatPlainTextToHTML content) ['<', 's'] = false := by
    unfold formatPlainTextToHTML
    refine containsSub_pair_joinWith (by decide) (by decide) _ ?_
    intro l hl
    obtain ⟨line, _, rfl⟩ := List.mem_map.mp hl
    exact renderLineB_no_lt_s line
  have hsplit : "<script>".data = ['<', 's'] ++ "cript>".data := by decide
  rw [hsplit]
  exact containsSub_extend_false _ h2

/-- C2, counterexample: the Link Rewriter is a blanket replacement of
`<a href="` by `<a href="/wiki/`; applied twice to `<a href="x">` it
double-prefixes, refuting idempotence (and, at the already-internal anchor
produced by the first application, refuting "leaves internal anchors
unchanged"). -/
theorem c2_rewriter_not_idempotent_cex :
    processWikiLinks (processWikiLinks "<a href=\"x\">".data)
      ≠ processWikiLinks "<a href=\"x\">".data := by
  simp only [processWikiLinks, goReplaceAll]
  simp [replLoop, startsWithL]

/-- C2, amended: the rewriter replaces every occurrence of `<a href="` by
`<a href="/wiki/`, regardless of whether the target already points at the
internal base; an anchor already pointing at `/wiki/` is prefixed again
(double-prefixed), so the rewriter is not idempotent. -/
theorem c2_rewriter_prefixes_every_anchor :
    (∀ s : Str,
        processWikiLinks ("<a href=\"".data ++ s)
          = "<a href=\"/wiki/".data ++ processWikiLinks s)
      ∧ processWikiLinks "<a href=\"/wiki/x\">".data
          = "<a href=\"/wiki//wiki/x\">".data := by
  constructor
  · intro s
    exact goReplaceAll_pat_append '<' "a href=\"".data "<a href=\"/wiki/".data s
  · simp only [processWikiLinks, goReplaceAll]
    simp [replLoop, startsWithL]

/-- C3, counterexample: the newline encoding (`\n` ↦ `\\n`) is not
injective — the one-character snapshot `"\n"` and the two-character snapshot
`"\\n"` encode identically — and the client's re-expansion does not recover
a snapshot that already contains the literal characters `\` `n`. -/
theorem c3_newline_encoding_cex :
    escapeNewlines ['\n'] = escapeNewlines ['\\', 'n']
      ∧ clientDecode (escapeNewlines ['\\', 'n']) ≠ ['\\', 'n'] := by
  constructor
  · simp only [escapeNewlines, goReplaceAll]
    simp [replLoop, startsWithL]
  · simp only [escapeNewlines, clientDecode, goReplaceAll]
    simp [replLoop, startsWithL]

/-- C3, amended: for every snapshot string that does not already contain
the literal two-character sequence `\` `n`, replacing each newline by that
escape sequence and re-expanding every escape back to a newline recovers
exactly the original snapshot. -/
theorem c3_newline_roundtrip (s : Str)
    (h : containsSub s ['\\', 'n'] = false) :
    clientDecode (escapeNewlines s) = s :=
  roundtrip_aux s h

/-- C3, witness: the round-trip theorem applied to the concrete snapshot
`"a\nb"`. -/
theorem c3_newline_roundtrip_witness :
    containsSub "a\nb".data ['\\', 'n'] = false
      ∧ clientDecode (escapeNewlines "a\nb".data) = "a\nb".data :=
  ⟨by decide, c3_newline_roundtrip "a\nb".data (by decide)⟩

/-- C6: on the line `"The Quantum Theory was important."` the auto-linking
renderer links exactly `Quantum`, `Theory` and `important` (the trailing
period stripped and kept outside the anchor), keeps the stop words `The`
and `was` plain, and every route target equals the stripped word. -/
theorem c6_autolink_example_line :
    makeWordsClickable "The Quantum Theory was important.".data
      = ("The <a href=\"/wiki/Quantum\">Quantum</a> "
          ++ "<a href=\"/wiki/Theory\">Theory</a> was "
          ++ "<a href=\"/wiki/important\">important</a>.").data := by
  decide

/-- C7: `"Introduction:"` renders as a heading, `"This is a sentence with a
period."` as a paragraph, a blank line as a line break only; and in general
a non-blank line is classified as a heading exactly when its trimmed
content ends with a colon, or is under 100 characters, period-free, and has
a first character equal to its own upper-casing. -/
theorem c7_heading_classification :
    formatPlainTextToHTML "Introduction:".data = "<h3>Introduction:</h3>".data
      ∧ formatPlainTextToHTML "This is a sentence with a period.".data
          = "<p>This is a sentence with a period.</p>".data
      ∧ formatPlainTextToHTML "".data = "<br>".data
      ∧ ∀ line : Str, goTrimSpace line ≠ [] →
          isHeadingLine line = headingSpec (goTrimSpace line) := by
  refine ⟨by decide, by decide, by decide, ?_⟩
  intro line hne
  unfold isHeadingLine headingSpec
  cases h : goTrimSpace line with
  | nil => exact absurd h hne
  | cons c t => simp [List.head?]

/-- C7, witness: the classification theorem applied to the concrete line
`"History"` (non-blank, heading by the length/period/upper-case branch). -/
theorem c7_heading_classification_witness :
    goTrimSpace "History".data ≠ []
      ∧ isHeadingLine "History".data = headingSpec (goTrimSpace "History".data) :=
  ⟨by decide, c7_heading_classification.2.2.2 "History".data (by decide)⟩

/-- C8: both embedded Markup Renderer strategies are pure functions of the
buffer text — re-invoking them on the same buffer yields identical markup;
the embedding itself required no state beyond the buffer. -/
theorem c8_renderers_deterministic (s : Str) :
    formatPlainTextToHTML s = formatPlainTextToHTML s
      ∧ makeEveryWordClickable s = makeEveryWordClickable s :=
  ⟨rfl, rfl⟩

theorem ctxErr_none (t : Nat) : ctxErr none t = false := rfl

/-- With no cancellation the decode loop returns no error, accumulates
exactly the concatenation of the processed fragments onto the incoming
buffer, and pushes exactly the expected snapshot trace. -/
theorem decodeLoop_none_spec (render : Str → Str) (chunks : List OllamaChunk) :
    ∀ (t : Nat) (buf : Str),
      (decodeLoop render none chunks t buf).cancelErr = false
        ∧ (decodeLoop render none chunks t buf).buffer
            = buf ++ ((processedChunks chunks).map OllamaChunk.response).flatten
        ∧ (decodeLoop render none chunks t buf).events
            = snapshotTrace render buf chunks := by
  induction chunks with
  | nil =>
    intro t buf
    simp [decodeLoop, ctxErr, processedChunks, snapshotTrace]
  | cons ch rest ih =>
    intro t buf
    by_cases hd : ch.done = true
    · simp [decodeLoop, ctxErr, processedChunks, snapshotTrace, hd]
    · have hd' : ch.done = false := by simpa using hd
      obtain ⟨ih1, ih2, ih3⟩ := ih (t + 1) (buf ++ ch.response)
      simp only [decodeLoop, ctxErr, processedChunks, snapshotTrace, hd',
        if_false, Bool.false_eq_true, if_neg (fun h => h)]
      refine ⟨ih1, ?_, by rw [ih3]⟩
      rw [ih2]
      simp [List.append_assoc]

/-- The loop reports a cancellation error only when the context really is
cancelled at the time it returns. -/
theorem decodeLoop_cancelErr_ctx (render : Str → Str) (cancelAt : CancelSpec)
    (chunks : List OllamaChunk) :
    ∀ (t : Nat) (buf : Str),
      (decodeLoop render cancelAt chunks t buf).cancelErr = true →
        ctxErr cancelAt (decodeLoop render cancelAt chunks t buf).tEnd = true := by
  induction chunks with
  | nil =>
    intro t buf
    simp only [decodeLoop]
    by_cases h0 : ctxErr cancelAt t = true
    · simp [h0]
    · by_cases h1 : ctxErr cancelAt (t + 1) = true
      · simp [h1, if_neg h0]
      · simp [if_neg h0, if_neg h1]
  | cons ch rest ih =>
    intro t buf
    simp only [decodeLoop]
    by_cases h0 : ctxErr cancelAt t = true
    · simp [h0]
    · simp only [if_neg h0]
      by_cases hd : ch.done = true
      · simp [hd]
      · have hd' : ch.done = false := by simpa using hd
        simp only [hd', Bool.false_eq_true, if_false]
        exact ih (t + 1) (buf ++ ch.response)

/-- Every event the decode loop itself pushes is a content snapshot. -/
theorem decodeLoop_events_content (render : Str → Str) (cancelAt : CancelSpec)
    (chunks : List OllamaChunk) :
    ∀ (t : Nat) (buf : Str),
      ∀ e ∈ (decodeLoop render cancelAt chunks t buf).events, ∃ s, e = SSE.content s := by
  induction chunks with
  | nil =>
    intro t buf e he
    simp only [decodeLoop] at he
    by_cases h0 : ctxErr cancelAt t = true
    · simp [h0] at he
    · simp only [if_neg h0] at he
      by_cases h1 : ctxErr cancelAt (t + 1) = true
      · simp [h1] at he
      · simp [if_neg h1] at he
  | cons ch rest ih =>
    intro t buf e he
    simp only [decodeLoop] at he
    by_cases h0 : ctxErr cancelAt t = true
    · simp [h0] at he
    · simp only [if_neg h0] at he
      have hhere : ∀ e' ∈ (if ch.response.isEmpty then ([] : List SSE)
          else [SSE.content (escapeNewlines (render (buf ++ ch.response)))]),
          ∃ s, e' = SSE.content s := by
        intro e' he'
        by_cases hr : ch.response.isEmpty
        · simp [hr] at he'
        · simp [hr] at he'
          exact ⟨_, he'⟩
      by_cases hd : ch.done = true
      · simp only [hd, if_true] at he
        exact hhere e he
      · have hd' : ch.done = false := by simpa using hd
        simp only [hd', Bool.false_eq_true, if_false, List.mem_append] at he
        rcases he with he | he
        · exact hhere e he
        · exact ih (t + 1) (buf ++ ch.response) e he

/-- With cancellation at time `k`, at most `k - t` chunks are processed
before the loop observes the cancellation. -/
theorem decodeLoop_events_le (render : Str → Str) (k : Nat)
    (chunks : List OllamaChunk) :
    ∀ (t : Nat) (buf : Str),
      (decodeLoop render (some k) chunks t buf).events.length ≤ k - t := by
  induction chunks with
  | nil =>
    intro t buf
    simp only [decodeLoop]
    by_cases h0 : ctxErr (some k) t = true
    · simp [h0]
    · simp only [if_neg h0]
      by_cases h1 : ctxErr (some k) (t + 1) = true
      · simp [h1]
      · simp [if_neg h1]
  | cons ch rest ih =>
    intro t buf
    simp only [decodeLoop]
    by_cases h0 : ctxErr (some k) t = true
    · simp [h0]
    · have htk : t < k := by
        simp [ctxErr] at h0
        omega
      simp only [if_neg h0]
      have hhere : (if ch.response.isEmpty then ([] : List SSE)
          else [SSE.content (escapeNewlines (render (buf ++ ch.response)))]).length ≤ 1 := by
        by_cases hr : ch.response.isEmpty <;> simp [hr]
      by_cases hd : ch.done = true
      · simp only [hd, if_true]
        omega
      · have hd' : ch.done = false := by simpa using hd
        simp only [hd', Bool.false_eq_true, if_false, List.length_append]
        have := ih (t + 1) (buf ++ ch.response)
        omega

/-- With all flags `done = false` the loop consumes every chunk. -/
theorem processedChunks_all (chunks : List OllamaChunk)
    (h : ∀ c ∈ chunks, c.done = false) : processedChunks chunks = chunks := by
  induction chunks with
  | nil => rfl
  | cons ch rest ih =>
    have hd := h ch (by simp)
    simp only [processedChunks, hd, Bool.false_eq_true, if_false]
    rw [ih (fun c hc => h c (by simp [hc]))]

/-- C4: if the client disconnects mid-stream (the context is cancelled
while the decode loop is still running), the session aborts with the
cancellation error at its next check — having processed at most `k` chunks
— and the handler pushes nothing further: no terminal completion event and
no error event ever reach the client. -/
theorem c4_cancelled_session_aborts (render : Str → Str)
    (chunks : List OllamaChunk) (k : Nat)
    (h : (decodeLoop render (some k) chunks 0 []).cancelErr = true) :
    streamHandlerModel render (some k) chunks
        = (decodeLoop render (some k) chunks 0 []).events
      ∧ SSE.complete ∉ streamHandlerModel render (some k) chunks
      ∧ SSE.error ∉ streamHandlerModel render (some k) chunks
      ∧ (decodeLoop render (some k) chunks 0 []).events.length ≤ k := by
  have hctx := decodeLoop_cancelErr_ctx render (some k) chunks 0 [] h
  have heq : streamHandlerModel render (some k) chunks
      = (decodeLoop render (some k) chunks 0 []).events := by
    simp [streamHandlerModel, h, hctx]
  have hcontent := decodeLoop_events_content render (some k) chunks 0 []
  refine ⟨heq, ?_, ?_, ?_⟩
  · rw [heq]
    intro hmem
    obtain ⟨s, hs⟩ := hcontent _ hmem
    exact SSE.noConfusion hs
  · rw [heq]
    intro hmem
    obtain ⟨s, hs⟩ := hcontent _ hmem
    exact SSE.noConfusion hs
  · simpa using decodeLoop_events_le render k chunks 0 []

/-- C4, witness: cancellation observed at the top of the second iteration
of a three-chunk stream. -/
theorem c4_cancelled_session_witness :
    (decodeLoop (fun s => s) (some 1)
        [⟨[], false⟩, ⟨[], false⟩, ⟨[], false⟩] 0 []).cancelErr = true
      ∧ SSE.complete ∉ streamHandlerModel (fun s => s) (some 1)
          [⟨[], false⟩, ⟨[], false⟩, ⟨[], false⟩] :=
  ⟨by decide,
    (c4_cancelled_session_aborts (fun s => s)
      [⟨[], false⟩, ⟨[], false⟩, ⟨[], false⟩] 1 (by decide)).2.1⟩

/-- C5: when the backend stream ends without a `done = true` object (the
decode of the next chunk fails mid-stream) and the session is not
cancelled, the loop stops as if the stream had ended: it returns without
error, no error event is pushed, the buffer holds every fragment pushed so
far, and exactly one terminal completion event follows the content
snapshots. -/
theorem c5_malformed_stream_completes (render : Str → Str)
    (chunks : List OllamaChunk) (h : ∀ c ∈ chunks, c.done = false) :
    streamHandlerModel render none chunks
        = (decodeLoop render none chunks 0 []).events ++ [SSE.complete]
      ∧ (decodeLoop render none chunks 0 []).cancelErr = false
      ∧ SSE.error ∉ streamHandlerModel render none chunks
      ∧ (streamHandlerModel render none chunks).count SSE.complete = 1
      ∧ (decodeLoop render none chunks 0 []).buffer
          = (chunks.map OllamaChunk.response).flatten := by
  obtain ⟨h1, h2, _⟩ := decodeLoop_none_spec render chunks 0 []
  have heq : streamHandlerModel render none chunks
      = (decodeLoop render none chunks 0 []).events ++ [SSE.complete] := by
    simp [streamHandlerModel, h1, ctxErr]
  have hcontent := decodeLoop_events_content render none chunks 0 []
  have hnc : SSE.complete ∉ (decodeLoop render none chunks 0 []).events := by
    intro hmem
    obtain ⟨s, hs⟩ := hcontent _ hmem
    exact SSE.noConfusion hs
  refine ⟨heq, h1, ?_, ?_, ?_⟩
  · rw [heq]
    intro hmem
    rcases List.mem_append.mp hmem with hmem | hmem
    · obtain ⟨s, hs⟩ := hcontent _ hmem
      exact SSE.noConfusion hs
    · simp at hmem
  · rw [heq, List.count_append]
    rw [List.count_eq_zero.mpr hnc]
    rfl
  · rw [h2, processedChunks_all chunks h]
    simp

/-- C5, witness: a two-chunk stream whose decode then fails. -/
theorem c5_malformed_stream_witness :
    (∀ c ∈ [OllamaChunk.mk "Ancient ".data false, OllamaChunk.mk "Rome".data false],
        c.done = false)
      ∧ (streamHandlerModel (fun s => s) none
          [OllamaChunk.mk "Ancient ".data false, OllamaChunk.mk "Rome".data false]).count
            SSE.complete = 1 :=
  ⟨by decide,
    (c5_malformed_stream_completes (fun s => s)
      [OllamaChunk.mk "Ancient ".data false, OllamaChunk.mk "Rome".data false]
      (by decide)).2.2.2.1⟩

/-- C9: for every starting buffer and time, the decode loop's final buffer
is the starting buffer followed by the concatenation, in arrival order, of
the fragments of all processed chunks (append-only, never truncated), and
its pushed events are exactly the snapshot trace in which every non-empty
fragment is immediately followed by a push of the rendered full
concatenation. -/
theorem c9_buffer_concat_invariant (render : Str → Str)
    (chunks : List OllamaChunk) (t : Nat) (buf : Str) :
    (decodeLoop render none chunks t buf).buffer
        = buf ++ ((processedChunks chunks).map OllamaChunk.response).flatten
      ∧ (decodeLoop render none chunks t buf).events
          = snapshotTrace render buf chunks :=
  ⟨(decodeLoop_none_spec render chunks t buf).2.1,
   (decodeLoop_none_spec render chunks t buf).2.2⟩

theorem joinWith_eq_intercalate (c : Char) (ls : List Str) :
    joinWith c ls = List.intercalate [c] ls := by
  induction ls with
  | nil => simp [joinWith, List.intercalate]
  | cons l ls ih =>
    cases ls with
    | nil => simp [joinWith, List.intercalate]
    | cons l' ls' =>
      simp only [joinWith, ih]
      simp [List.intercalate, List.intersperse]

theorem goFieldsAux_trailing {c : Char} (hc : isGoSpace c = true) :
    ∀ (l : Str) (acc : Str), goFieldsAux (l ++ [c]) acc = goFieldsAux l acc := by
  intro l
  induction l with
  | nil =>
    intro acc
    by_cases ha : acc.isEmpty <;> simp [goFieldsAux, hc, ha]
  | cons d l ih =>
    intro acc
    by_cases hd : isGoSpace d
    · by_cases ha : acc.isEmpty <;> simp [goFieldsAux, hd, ha, ih]
    · simp [goFieldsAux, hd, ih]

theorem goFieldsAux_collapse {c : Char} (hc : isGoSpace c = true) (b : Str) :
    ∀ (a : Str) (acc : Str),
      goFieldsAux (a ++ c :: c :: b) acc = goFieldsAux (a ++ c :: b) acc := by
  intro a
  induction a with
  | nil =>
    intro acc
    by_cases ha : acc.isEmpty <;> simp [goFieldsAux, hc, ha]
  | cons d a ih =>
    intro acc
    by_cases hd : isGoSpace d
    · by_cases ha : acc.isEmpty <;> simp [goFieldsAux, hd, ha, ih]
    · simp [goFieldsAux, hd, ih]

/-- C10: the auto-linking word pass joins the whitespace-delimited words of
a line with exactly one space each; leading whitespace, trailing whitespace
and repeated whitespace characters inside the line are dropped or collapsed
by the field splitter and do not survive into the snapshot. -/
theorem c10_autolink_whitespace :
    (∀ line : Str,
        makeWordsClickable line = List.intercalate [' '] ((goFields line).map clickWord))
      ∧ (∀ (c : Char) (l : Str), isGoSpace c = true → goFields (c :: l) = goFields l)
      ∧ (∀ (c : Char) (l : Str), isGoSpace c = true → goFields (l ++ [c]) = goFields l)
      ∧ (∀ (c : Char) (a b : Str), isGoSpace c = true →
          goFields (a ++ c :: c :: b) = goFields (a ++ c :: b)) := by
  refine ⟨?_, ?_, ?_, ?_⟩
  · intro line
    exact joinWith_eq_intercalate ' ' ((goFields line).map clickWord)
  · intro c l hc
    simp [goFields, goFieldsAux, hc]
  · intro c l hc
    exact goFieldsAux_trailing hc l []
  · intro c a b hc
    exact goFieldsAux_collapse hc b a []

/-- C10, witness: the general statements applied to spaces and tabs in the
concrete line `" ab  cd "`. -/
theorem c10_autolink_whitespace_witness :
    isGoSpace ' ' = true ∧ isGoSpace '\t' = true
      ∧ goFields (' ' :: "ab  cd ".data) = goFields "ab  cd ".data
      ∧ goFields ("ab".data ++ [' ']) = goFields "ab".data
      ∧ goFields ("ab".data ++ '\t' :: '\t' :: "cd".data)
          = goFields ("ab".data ++ '\t' :: "cd".data) :=
  ⟨by decide, by decide,
    c10_autolink_whitespace.2.1 ' ' "ab  cd ".data (by decide),
    c10_autolink_whitespace.2.2.1 ' ' "ab".data (by decide),
    c10_autolink_whitespace.2.2.2 '\t' "ab".data "cd".data (by decide)⟩

end EndlessWiki
